import Mathlib

set_option maxRecDepth 40000

/-!
Verification of the binary-resource embedding pipeline of
`embed_data_files.py` (a PlatformIO build script embedding web UI data
files as assembly units).

The definitions below are a shallow embedding of the Python source:

* `basename`            — `os.path.basename` (POSIX: last `/`-segment);
* `replaceChar`         — Python `str.replace(old, new)` for a
                          single-character pattern (per-character map);
* `safeName`            — `base_name.replace(".", "_").replace("-", "_")`;
* `byteLit`             — `f"0x{byte:02x}"` for a byte value `< 256`;
* `renderBytes`         — the `for i, byte in enumerate(data)` loop writing
                          the `.byte` data lines;
* `asmText`             — the full text written by `generate_assembly_file`;
* `asmPath`             — `os.path.join(build_dir, f"{base_name}.S")`;
* `runPlan`             — the `for data_file in data_files` loop, with the
                          filesystem modelled as `String → Option (List Nat)`
                          (`none` = missing file, `some bytes` = contents);
* `data_files`          — the statically declared input list.

`splitChar`, `leadsWith`, `parseHex`, `parseLits` and `bytesOf` are the
decoder used to state the round-trip and structure properties: they split
the emitted text into lines, select the byte-literal directive lines and
parse the hex literals back into byte values.
-/

/-- Split a character list at every occurrence of `sep` (the separators are
consumed); always returns at least one (possibly empty) component. -/
def splitChar (sep : Char) : List Char → List (List Char)
  | [] => [[]]
  | c :: rest =>
    if c = sep then [] :: splitChar sep rest
    else
      match splitChar sep rest with
      | [] => [[c]]
      | l :: ls => (c :: l) :: ls

/-- `os.path.basename` for POSIX paths: the last `/`-separated segment. -/
def basename (p : String) : String :=
  ⟨(splitChar '/' p.data).getLastD []⟩

/-- Python `s.replace(old, new)` for a one-character pattern: replace every
occurrence of `old` by `new`. -/
def replaceChar (old new : Char) (s : String) : String :=
  ⟨s.data.map fun c => if c = old then new else c⟩

/-- `safe_name = base_name.replace(".", "_").replace("-", "_")`
(source line 34). -/
def safeName (base_name : String) : String :=
  replaceChar '-' '_' (replaceChar '.' '_' base_name)

/-- The derived symbol base of an input path: `safe_name` of its base name
(source lines 33–34). -/
def symbolBase (p : String) : String :=
  safeName (basename p)

/-- Hex digit character used by Python's `%x` formatting (lowercase). -/
def hexDigit (n : Nat) : Char :=
  if n < 10 then Char.ofNat (n + 48) else Char.ofNat (n + 87)

/-- `f"0x{byte:02x}"` — for `b < 256` this is exactly `0x` followed by the
two lowercase hex digits of `b` (source line 55). -/
def byteLit (b : Nat) : String :=
  ⟨['0', 'x', hexDigit (b / 16), hexDigit (b % 16)]⟩

/-- The data-emission loop of `generate_assembly_file` (source lines 52–57):
at index `i` (counting from 0, with `len` the total byte count) write a
fresh `.byte` line every 16 bytes, then the literal, then `", "` unless the
byte is the last one overall or the last one on its line. -/
def renderBytes (len : Nat) : Nat → List Nat → String
  | _, [] => ""
  | i, b :: rest =>
    (if i % 16 = 0 then "\n    .byte " else "") ++ byteLit b ++
      (if i < len - 1 ∧ (i + 1) % 16 ≠ 0 then ", " else "") ++
      renderBytes len (i + 1) rest

/-- The complete text written by `generate_assembly_file` for a file with
base name `base_name` and contents `data` (source lines 43–62). -/
def asmText (base_name : String) (data : List Nat) : String :=
  "\n    .section .rodata.embedded\n    .global _binary_" ++ safeName base_name ++
    "_start\n    .global _binary_" ++ safeName base_name ++
    "_end\n    .align 4\n_binary_" ++ safeName base_name ++ "_start:\n" ++
    renderBytes data.length 0 data ++
    "\n    .byte 0x00\n_binary_" ++ safeName base_name ++ "_end:\n"

/-- `os.path.join(build_dir, f"{base_name}.S")` for the base name of
`source_file` (source lines 33 and 41; `build_dir` carries no trailing
separator). -/
def asmPath (build_dir source_file : String) : String :=
  build_dir ++ "/" ++ basename source_file ++ ".S"

/-- The statically declared input list (source lines 9–25). -/
def data_files : List String :=
  ["data/index.html", "data/config.html", "data/monitor.html", "data/ota.html",
   "data/logs.html", "data/network.html", "data/css/style.css", "data/js/api.js",
   "data/js/utils.js", "data/js/app.js", "data/js/config.js", "data/js/monitor.js",
   "data/js/ota.js", "data/js/logs.js", "data/js/network.js"]

/-- The `for data_file in data_files` loop (source lines 68–76): the
filesystem is `fs` (`none` = the path does not exist). Returns the emitted
units (output path and written text, in plan order) and the warning log
lines for skipped files. -/
def runPlan (fs : String → Option (List Nat)) (build_dir : String) :
    List String → List (String × String) × List String
  | [] => ([], [])
  | f :: rest =>
    let r := runPlan fs build_dir rest
    match fs f with
    | some data => ((asmPath build_dir f, asmText (basename f) data) :: r.1, r.2)
    | none => (r.1, ("  WARNING: File not found: " ++ f) :: r.2)

/-- A single overwriting file write into a store of path-indexed contents. -/
def fsWrite (st : String → Option String) (path content : String) :
    String → Option String :=
  fun q => if q = path then some content else st q

/-- One run of `generate_assembly_file` viewed as its effect on the build
directory's file store: write `asmText` at `asmPath`. -/
def emitRun (st : String → Option String) (build_dir source_file : String)
    (data : List Nat) : String → Option String :=
  fsWrite st (asmPath build_dir source_file) (asmText (basename source_file) data)

/-! ### Decoder: lines, directive recognition, literal parsing -/

/-- `leadsWith p l` is true iff `p` is an initial segment of `l`. -/
def leadsWith : List Char → List Char → Bool
  | [], _ => true
  | _ :: _, [] => false
  | a :: as, b :: bs => if a = b then leadsWith as bs else false

/-- The characters of the byte-directive line head `    .byte `. -/
def byteDir : List Char := "    .byte ".data

/-- The characters of the global-declaration line head `    .global `. -/
def globDir : List Char := "    .global ".data

/-- Parse one lowercase hex digit character. -/
def parseHex (c : Char) : Option Nat :=
  if 48 ≤ c.toNat ∧ c.toNat ≤ 57 then some (c.toNat - 48)
  else if 97 ≤ c.toNat ∧ c.toNat ≤ 102 then some (c.toNat - 87)
  else none

/-- Parse a nonempty `", "`-separated sequence of `0xhh` byte literals. -/
def parseLits : List Char → Option (List Nat)
  | '0' :: 'x' :: h :: g :: rest =>
    match parseHex h, parseHex g with
    | some a, some b =>
      match rest with
      | [] => some [16 * a + b]
      | ',' :: ' ' :: rest2 => (parseLits rest2).map fun t => (16 * a + b) :: t
      | _ => none
    | _, _ => none
  | _ => none

/-- All byte values encoded by the byte-literal directive lines of an
emitted text, in order: split into lines, keep the lines opening with
`    .byte `, parse their literal lists, and concatenate. -/
def bytesOf (text : String) : List Nat :=
  ((splitChar '\n' text.data).filterMap fun l =>
    if leadsWith byteDir l then parseLits (l.drop 10) else none).flatten

/-! ### Chunked view of the data block -/

/-- The 16-byte chunks of a list, in order (last chunk may be shorter). -/
def chunk16 : List Nat → List (List Nat)
  | [] => []
  | b :: l => (b :: l.take 15) :: chunk16 (l.drop 15)
termination_by l => l.length
decreasing_by simp; omega

/-- The characters of one line's `", "`-separated literal list. -/
def interLits : List Nat → List Char
  | [] => []
  | [b] => (byteLit b).data
  | b :: c :: t => (byteLit b).data ++ ',' :: ' ' :: interLits (c :: t)

/-- The character contents of the data block: one line per chunk, each
introduced by a newline and the `.byte` directive head. -/
def chunkBody (cs : List (List Nat)) : List Char :=
  (cs.map fun c => '\n' :: (byteDir ++ interLits c)).flatten

/-! ### Line structure of the emitted text -/

/-- The section directive line. -/
def sectLine : List Char := "    .section .rodata.embedded".data

/-- The alignment directive line. -/
def alignLine : List Char := "    .align 4".data

/-- The global declaration line for the start symbol of symbol base `s`. -/
def globLine1 (s : List Char) : List Char :=
  globDir ++ ("_binary_".data ++ (s ++ "_start".data))

/-- The global declaration line for the end symbol of symbol base `s`. -/
def globLine2 (s : List Char) : List Char :=
  globDir ++ ("_binary_".data ++ (s ++ "_end".data))

/-- The start label line of symbol base `s`. -/
def startLine (s : List Char) : List Char :=
  "_binary_".data ++ (s ++ "_start:".data)

/-- The end label line of symbol base `s`. -/
def endLine (s : List Char) : List Char :=
  "_binary_".data ++ (s ++ "_end:".data)

/-- The sentinel directive line `    .byte 0x00`. -/
def sentLine : List Char := "    .byte 0x00".data

/-- The byte-literal directive lines of an emitted text, in order. -/
def byteLines (text : String) : List (List Char) :=
  (splitChar '\n' text.data).filter fun l => leadsWith byteDir l

/-- A lowercase hexadecimal digit character (`0`–`9` or `a`–`f`). -/
def isLowHex (c : Char) : Bool :=
  (48 ≤ c.toNat && c.toNat ≤ 57) || (97 ≤ c.toNat && c.toNat ≤ 102)

/-- The symbol base as the specification words it: take the base name and
map every `.` and every `-` character to `_`, leaving all other characters
(including case) unchanged. -/
def specSymbolBase (p : String) : String :=
  ⟨(basename p).data.map fun c => if c = '.' ∨ c = '-' then '_' else c⟩

theorem chunk16_cons (b : Nat) (l : List Nat) :
    chunk16 (b :: l) = (b :: l.take 15) :: chunk16 (l.drop 15) := by
  rw [chunk16]

theorem chunk16_nil : chunk16 [] = [] := by rw [chunk16]

theorem chunk16_flatten : ∀ l : List Nat, (chunk16 l).flatten = l := by
  have key : ∀ n (l : List Nat), l.length ≤ n → (chunk16 l).flatten = l := by
    intro n
    induction n with
    | zero =>
      intro l h
      have hl : l = [] := List.length_eq_zero.mp (by omega)
      subst hl
      rw [chunk16_nil]
      rfl
    | succ n ih =>
      intro l h
      match l with
      | [] => rw [chunk16_nil]; rfl
      | b :: l =>
        rw [chunk16_cons]
        simp only [List.flatten_cons]
        rw [ih (l.drop 15) (by simp at h ⊢; omega)]
        simp
  exact fun l => key l.length l le_rfl

theorem chunk16_sizes : ∀ l : List Nat, ∀ c ∈ chunk16 l, c ≠ [] ∧ c.length ≤ 16 := by
  have key : ∀ n (l : List Nat), l.length ≤ n → ∀ c ∈ chunk16 l, c ≠ [] ∧ c.length ≤ 16 := by
    intro n
    induction n with
    | zero =>
      intro l h
      have hl : l = [] := List.length_eq_zero.mp (by omega)
      subst hl
      simp [chunk16_nil]
    | succ n ih =>
      intro l h c hc
      match l with
      | [] => rw [chunk16_nil] at hc; simp at hc
      | b :: l =>
        rw [chunk16_cons] at hc
        rcases List.mem_cons.mp hc with h1 | h1
        · subst h1
          refine ⟨by simp, ?_⟩
          simp only [List.length_cons, List.length_take]
          omega
        · exact ih (l.drop 15) (by simp at h ⊢; omega) c h1
  exact fun l => key l.length l le_rfl

theorem chunk16_mem_mem : ∀ l : List Nat, ∀ c ∈ chunk16 l, ∀ x ∈ c, x ∈ l := by
  have key : ∀ n (l : List Nat), l.length ≤ n → ∀ c ∈ chunk16 l, ∀ x ∈ c, x ∈ l := by
    intro n
    induction n with
    | zero =>
      intro l h
      have hl : l = [] := List.length_eq_zero.mp (by omega)
      subst hl
      simp [chunk16_nil]
    | succ n ih =>
      intro l h c hc x hx
      match l with
      | [] => rw [chunk16_nil] at hc; simp at hc
      | b :: l =>
        rw [chunk16_cons] at hc
        rcases List.mem_cons.mp hc with h1 | h1
        · subst h1
          rcases List.mem_cons.mp hx with h2 | h2
          · simp [h2]
          · exact List.mem_cons_of_mem _ (List.take_subset 15 l h2)
        · have := ih (l.drop 15) (by simp at h ⊢; omega) c h1 x hx
          exact List.mem_cons_of_mem _ (List.drop_subset 15 l this)
  exact fun l => key l.length l le_rfl

/-! ### splitChar lemmas -/

theorem splitChar_ne_nil (sep : Char) (l : List Char) : splitChar sep l ≠ [] := by
  induction l with
  | nil => simp [splitChar]
  | cons c rest ih =>
    rw [splitChar]
    by_cases h : c = sep
    · simp [h]
    · simp only [if_neg h]
      cases hs : splitChar sep rest with
      | nil => simp
      | cons a as => simp

theorem splitChar_sep_cons (sep : Char) (l : List Char) :
    splitChar sep (sep :: l) = [] :: splitChar sep l := by
  rw [splitChar]; simp

theorem splitChar_append (sep : Char) (xs ys : List Char) (h : sep ∉ xs) :
    splitChar sep (xs ++ sep :: ys) = xs :: splitChar sep ys := by
  induction xs with
  | nil => simpa using splitChar_sep_cons sep ys
  | cons x xs ih =>
    have hx : x ≠ sep := by intro he; exact h (he ▸ List.mem_cons_self x xs)
    have hxs : sep ∉ xs := fun hm => h (List.mem_cons_of_mem x hm)
    rw [List.cons_append, splitChar, if_neg hx, ih hxs]

theorem splitChar_no_sep (sep : Char) (xs : List Char) (h : sep ∉ xs) :
    splitChar sep xs = [xs] := by
  induction xs with
  | nil => rfl
  | cons x xs ih =>
    have hx : x ≠ sep := by intro he; exact h (he ▸ List.mem_cons_self x xs)
    have hxs : sep ∉ xs := fun hm => h (List.mem_cons_of_mem x hm)
    rw [splitChar, if_neg hx, ih hxs]

/-! ### leadsWith lemmas -/

theorem leadsWith_iff_take (p l : List Char) :
    leadsWith p l = true ↔ l.take p.length = p := by
  induction p generalizing l with
  | nil => simp [leadsWith]
  | cons a as ih =>
    cases l with
    | nil => simp [leadsWith]
    | cons b bs =>
      rw [leadsWith]
      by_cases hab : a = b
      · subst hab; simp [ih]
      · rw [if_neg hab]
        simp only [Bool.false_eq_true, false_iff, List.length_cons, List.take_succ_cons,
          List.cons.injEq, not_and]
        intro h
        exact absurd h.symm hab

theorem leadsWith_self_append (p ys : List Char) : leadsWith p (p ++ ys) = true := by
  rw [leadsWith_iff_take, List.take_left]

theorem leadsWith_head_ne (a b : Char) (hab : a ≠ b) (p l : List Char) :
    leadsWith (a :: p) (b :: l) = false := by
  rw [leadsWith, if_neg hab]

/-! ### hex literal lemmas -/

theorem hexDigit_spec : ∀ n < 16, parseHex (hexDigit n) = some n ∧ hexDigit n ≠ '\n' := by
  intro n h; interval_cases n <;> exact ⟨rfl, by decide⟩

theorem byteLit_data (b : Nat) :
    (byteLit b).data = ['0', 'x', hexDigit (b / 16), hexDigit (b % 16)] := rfl

theorem byteLit_no_newline (b : Nat) (hb : b < 256) : '\n' ∉ (byteLit b).data := by
  have h1 := hexDigit_spec (b / 16) (by omega)
  have h2 := hexDigit_spec (b % 16) (by omega)
  rw [byteLit_data]
  intro h
  simp only [List.mem_cons, List.not_mem_nil, or_false] at h
  rcases h with h | h | h | h
  · exact absurd h (by decide)
  · exact absurd h (by decide)
  · exact h1.2 h.symm
  · exact h2.2 h.symm

theorem interLits_no_newline : ∀ l : List Nat, (∀ b ∈ l, b < 256) → '\n' ∉ interLits l := by
  intro l
  induction l with
  | nil => simp [interLits]
  | cons b t ih =>
    intro hl h
    cases t with
    | nil =>
      exact byteLit_no_newline b (hl b (List.mem_cons_self b [])) (by simpa [interLits] using h)
    | cons c t2 =>
      rw [interLits] at h
      rcases List.mem_append.mp h with h1 | h1
      · exact byteLit_no_newline b (hl b (by simp)) h1
      · simp only [List.mem_cons] at h1
        rcases h1 with h1 | h1 | h1
        · exact absurd h1 (by decide)
        · exact absurd h1 (by decide)
        · exact ih (fun x hx => hl x (List.mem_cons_of_mem b hx)) h1

theorem parseLits_byteLit (b : Nat) (hb : b < 256) (rest : List Char) :
    parseLits ((byteLit b).data ++ rest) =
      match rest with
      | [] => some [b]
      | ',' :: ' ' :: rest2 => (parseLits rest2).map fun t => b :: t
      | _ => none := by
  have h1 := (hexDigit_spec (b / 16) (by omega)).1
  have h2 := (hexDigit_spec (b % 16) (by omega)).1
  have hb' : 16 * (b / 16) + b % 16 = b := by omega
  rw [byteLit_data]
  show parseLits ('0' :: 'x' :: hexDigit (b / 16) :: hexDigit (b % 16) :: rest) = _
  rw [parseLits, h1, h2]
  simp only [hb']

theorem parseLits_interLits : ∀ l : List Nat, l ≠ [] → (∀ b ∈ l, b < 256) →
    parseLits (interLits l) = some l := by
  intro l
  induction l with
  | nil => simp
  | cons b t ih =>
    intro _ hl
    cases t with
    | nil =>
      rw [interLits, show (byteLit b).data = (byteLit b).data ++ [] by simp,
        parseLits_byteLit b (hl b (by simp))]
    | cons c t2 =>
      rw [interLits, parseLits_byteLit b (hl b (by simp))]
      show (parseLits (interLits (c :: t2))).map (fun t => b :: t) = some (b :: c :: t2)
      rw [ih (by simp) (fun x hx => hl x (List.mem_cons_of_mem b hx))]
      rfl

/-! ### The emission loop produces exactly the chunked line structure -/

theorem renderBytes_inner : ∀ (c : List Nat) (i len : Nat) (t : List Nat),
    i % 16 ≠ 0 → i % 16 + c.length ≤ 16 → (t ≠ [] → i % 16 + c.length = 16) →
    len = i + c.length + t.length →
    (renderBytes len i (c ++ t)).data =
      interLits c ++ (renderBytes len (i + c.length) t).data := by
  intro c
  induction c with
  | nil => intro i len t _ _ _ _; simp [interLits]
  | cons b c' ih =>
    intro i len t h1 h16 hfull hlen
    simp only [List.length_cons] at h16 hfull hlen ⊢
    rw [List.cons_append, renderBytes, if_neg h1]
    cases c' with
    | nil =>
      cases t with
      | nil =>
        have hcond : ¬(i < len - 1 ∧ (i + 1) % 16 ≠ 0) := by
          simp only [List.length_nil] at hlen; omega
        rw [if_neg hcond]
        simp [renderBytes, interLits, String.data_append]
      | cons u t2 =>
        have h15 : i % 16 = 15 := by
          have := hfull (by simp)
          simp only [List.length_nil] at this; omega
        have hcond : ¬(i < len - 1 ∧ (i + 1) % 16 ≠ 0) := by
          rintro ⟨_, hne⟩; exact hne (by omega)
        rw [if_neg hcond]
        simp only [List.nil_append, List.length_nil, interLits]
        have hz : i + (0 + 1) = i + 1 := by omega
        rw [hz]
        simp [String.data_append]
    | cons d c'' =>
      have hcond : i < len - 1 ∧ (i + 1) % 16 ≠ 0 := by
        simp only [List.length_cons] at h16 hlen ⊢
        exact ⟨by omega, by omega⟩
      rw [if_pos hcond]
      have ih' := ih (i + 1) len t (by simp only [List.length_cons] at h16; omega)
        (by simp only [List.length_cons] at h16 ⊢; omega)
        (fun ht => by
          have := hfull ht
          simp only [List.length_cons] at this ⊢; omega)
        (by simp only [List.length_cons] at hlen ⊢; omega)
      simp only [List.length_cons] at ih'
      have hidx : i + 1 + (c''.length + 1) = i + (c''.length + 1 + 1) := by omega
      rw [hidx] at ih'
      simp only [String.data_append, ih', interLits]
      simp [String.data_append]

theorem renderBytes_chunks : ∀ (l : List Nat) (i len : Nat), i % 16 = 0 →
    len = i + l.length →
    (renderBytes len i l).data = chunkBody (chunk16 l) := by
  have key : ∀ n (l : List Nat), l.length ≤ n → ∀ i len, i % 16 = 0 → len = i + l.length →
      (renderBytes len i l).data = chunkBody (chunk16 l) := by
    intro n
    induction n with
    | zero =>
      intro l h i len hi hlen
      have hl : l = [] := List.length_eq_zero.mp (by omega)
      subst hl
      simp [renderBytes, chunk16_nil, chunkBody]
    | succ n ih =>
      intro l h i len hi hlen
      match l with
      | [] => simp [renderBytes, chunk16_nil, chunkBody]
      | b :: l' =>
        simp only [List.length_cons] at hlen h
        rw [renderBytes, if_pos hi, chunk16_cons]
        have hmod1 : (i + 1) % 16 = 1 := by omega
        cases hl' : l' with
        | nil =>
          subst hl'
          have hcond : ¬(i < len - 1 ∧ (i + 1) % 16 ≠ 0) := by
            simp only [List.length_nil] at hlen; omega
          rw [if_neg hcond]
          simp [renderBytes, chunk16_nil, chunkBody, interLits, String.data_append, byteDir,
            show ("\n    .byte " : String).data = '\n' :: byteDir from rfl]
        | cons d l'' =>
          have hlne : l'.length ≠ 0 := by rw [hl']; simp
          have hcond : i < len - 1 ∧ (i + 1) % 16 ≠ 0 := by
            exact ⟨by omega, by omega⟩
          rw [if_pos hcond]
          rw [← hl']
          have hc' : l'.take 15 ≠ [] := by
            rw [hl']; simp
          obtain ⟨e, c'', hc⟩ := List.exists_cons_of_ne_nil hc'
          have hinner := renderBytes_inner (l'.take 15) (i + 1) len (l'.drop 15)
            (by omega) (by simp only [List.length_take]; omega)
            (fun ht => by
              have h15 : 15 < l'.length := by
                by_contra hcon
                exact ht (by rw [List.drop_eq_nil_iff]; omega)
              simp only [List.length_take]; omega)
            (by simp only [List.length_take, List.length_drop]; omega)
          have hsplit : l'.take 15 ++ l'.drop 15 = l' := List.take_append_drop 15 l'
          rw [hsplit] at hinner
          simp only [String.data_append, hinner]
          by_cases ht : l'.drop 15 = []
          · rw [ht]
            have h15 : l'.length ≤ 15 := by
              rw [List.drop_eq_nil_iff] at ht; omega
            have htake : l'.take 15 = l' := List.take_of_length_le h15
            simp only [renderBytes, chunkBody, List.map_cons, List.flatten_cons, ht,
              chunk16_nil, List.map_nil, List.flatten_nil, List.append_nil]
            rw [htake] at hc
            rw [hc]
            simp [interLits, String.data_append, byteDir,
              show ("\n    .byte " : String).data = '\n' :: byteDir from rfl]
          · have h15 : 15 < l'.length := by
              by_contra hcon
              exact ht (by rw [List.drop_eq_nil_iff]; omega)
            have hlen15 : (l'.take 15).length = 15 := by
              simp only [List.length_take]; omega
            have hrec := ih (l'.drop 15)
              (by simp only [List.length_drop]; omega)
              (i + 16) len (by omega)
              (by simp only [List.length_drop]; omega)
            have hidx : i + 1 + (l'.take 15).length = i + 16 := by rw [hlen15]
            rw [hidx, hrec, hc]
            simp [chunkBody, interLits, String.data_append, byteDir,
              show ("\n    .byte " : String).data = '\n' :: byteDir from rfl]
  exact fun l i len hi hlen => key l.length l le_rfl i len hi hlen

theorem renderBytes_data (l : List Nat) :
    (renderBytes l.length 0 l).data = chunkBody (chunk16 l) :=
  renderBytes_chunks l 0 l.length (by simp) (by simp)

theorem asmText_data (bn : String) (data : List Nat) :
    (asmText bn data).data =
      '\n' :: (sectLine ++ '\n' :: (globLine1 (safeName bn).data ++
        '\n' :: (globLine2 (safeName bn).data ++ '\n' :: (alignLine ++
        '\n' :: (startLine (safeName bn).data ++
        '\n' :: (chunkBody (chunk16 data) ++
        '\n' :: (sentLine ++ '\n' :: (endLine (safeName bn).data ++ ['\n'])))))))) := by
  have e1 : ("\n    .section .rodata.embedded\n    .global _binary_" : String).data =
      '\n' :: (sectLine ++ '\n' :: (globDir ++ "_binary_".data)) := by decide
  have e2 : ("_start\n    .global _binary_" : String).data =
      "_start".data ++ '\n' :: (globDir ++ "_binary_".data) := by decide
  have e3 : ("_end\n    .align 4\n_binary_" : String).data =
      "_end".data ++ '\n' :: (alignLine ++ '\n' :: "_binary_".data) := by decide
  have e4 : ("_start:\n" : String).data = "_start:".data ++ ['\n'] := by decide
  have e5 : ("\n    .byte 0x00\n_binary_" : String).data =
      '\n' :: (sentLine ++ '\n' :: "_binary_".data) := by decide
  have e6 : ("_end:\n" : String).data = "_end:".data ++ ['\n'] := by decide
  simp only [asmText, String.data_append, e1, e2, e3, e4, e5, e6, renderBytes_data,
    globLine1, globLine2, startLine, endLine]
  simp [sectLine, alignLine, globDir, sentLine, List.append_assoc]

theorem splitChar_append2 (sep : Char) (xs ys zs : List Char)
    (h1 : sep ∉ xs) (h2 : sep ∉ ys) :
    splitChar sep (xs ++ (ys ++ sep :: zs)) = (xs ++ ys) :: splitChar sep zs := by
  rw [← List.append_assoc]
  exact splitChar_append sep (xs ++ ys) zs (by simp [h1, h2])

theorem body_lines (cs : List (List Nat)) (tl : List Char)
    (hcs : ∀ c ∈ cs, '\n' ∉ interLits c) :
    splitChar '\n' (chunkBody cs ++ '\n' :: tl) =
      [] :: ((cs.map fun c => byteDir ++ interLits c) ++ splitChar '\n' tl) := by
  induction cs with
  | nil => simp [chunkBody, splitChar_sep_cons]
  | cons c cs' ih =>
    have hc : '\n' ∉ interLits c := hcs c (by simp)
    have hbd : ('\n' : Char) ∉ byteDir := by decide
    have ih' := ih fun c2 h2 => hcs c2 (List.mem_cons_of_mem c h2)
    cases cs' with
    | nil =>
      simp only [chunkBody, List.map_cons, List.map_nil, List.flatten_cons, List.flatten_nil,
        List.append_nil, List.cons_append, List.append_assoc]
      rw [splitChar_sep_cons, splitChar_append2 '\n' byteDir (interLits c) tl hbd hc]
      simp
    | cons c2 cs'' =>
      simp only [chunkBody, List.map_cons, List.flatten_cons, List.cons_append,
        List.append_assoc] at ih' ⊢
      rw [splitChar_sep_cons] at ih' ⊢
      simp only [List.cons.injEq, true_and] at ih'
      rw [splitChar_append2 '\n' byteDir (interLits c) _ hbd hc, ih']

theorem asm_lines (bn : String) (data : List Nat)
    (hs : '\n' ∉ (safeName bn).data) (hd : ∀ b ∈ data, b < 256) :
    splitChar '\n' (asmText bn data).data =
      [] :: sectLine :: globLine1 (safeName bn).data :: globLine2 (safeName bn).data ::
        alignLine :: startLine (safeName bn).data :: [] ::
        (((chunk16 data).map fun c => byteDir ++ interLits c) ++
          [sentLine, endLine (safeName bn).data, []]) := by
  have hg1 : '\n' ∉ globLine1 (safeName bn).data := by
    intro h
    rcases List.mem_append.mp h with h1 | h1
    · exact absurd h1 (by decide)
    rcases List.mem_append.mp h1 with h2 | h2
    · exact absurd h2 (by decide)
    rcases List.mem_append.mp h2 with h3 | h3
    · exact hs h3
    · exact absurd h3 (by decide)
  have hg2 : '\n' ∉ globLine2 (safeName bn).data := by
    intro h
    rcases List.mem_append.mp h with h1 | h1
    · exact absurd h1 (by decide)
    rcases List.mem_append.mp h1 with h2 | h2
    · exact absurd h2 (by decide)
    rcases List.mem_append.mp h2 with h3 | h3
    · exact hs h3
    · exact absurd h3 (by decide)
  have hst : '\n' ∉ startLine (safeName bn).data := by
    intro h
    rcases List.mem_append.mp h with h1 | h1
    · exact absurd h1 (by decide)
    rcases List.mem_append.mp h1 with h2 | h2
    · exact hs h2
    · exact absurd h2 (by decide)
  have hen : '\n' ∉ endLine (safeName bn).data := by
    intro h
    rcases List.mem_append.mp h with h1 | h1
    · exact absurd h1 (by decide)
    rcases List.mem_append.mp h1 with h2 | h2
    · exact hs h2
    · exact absurd h2 (by decide)
  have hchunks : ∀ c ∈ chunk16 data, '\n' ∉ interLits c := fun c hcm =>
    interLits_no_newline c fun b hb => hd b (chunk16_mem_mem data c hcm b hb)
  rw [asmText_data, splitChar_sep_cons,
    splitChar_append '\n' sectLine _ (by decide),
    splitChar_append '\n' (globLine1 (safeName bn).data) _ hg1,
    splitChar_append '\n' (globLine2 (safeName bn).data) _ hg2,
    splitChar_append '\n' alignLine _ (by decide),
    splitChar_append '\n' (startLine (safeName bn).data) _ hst,
    body_lines (chunk16 data) _ hchunks,
    splitChar_append '\n' sentLine _ (by decide),
    splitChar_append '\n' (endLine (safeName bn).data) _ hen]
  rfl

/-! ### Round trip: decoding the emitted byte lines -/

theorem leadsWith_eq_false {p l : List Char} (h : l.take p.length ≠ p) :
    leadsWith p l = false := by
  rw [Bool.eq_false_iff]
  intro hT
  exact h ((leadsWith_iff_take p l).mp hT)

theorem drop10_self_append (x : List Char) : (byteDir ++ x).drop 10 = x := by
  rw [show (10 : Nat) = byteDir.length from rfl, List.drop_left]

theorem filterMap_chunkLines (cs : List (List Nat)) (hne : ∀ c ∈ cs, c ≠ [])
    (hlt : ∀ c ∈ cs, ∀ b ∈ c, b < 256) :
    ((cs.map fun c => byteDir ++ interLits c).filterMap fun l =>
        if leadsWith byteDir l then parseLits (l.drop 10) else none) = cs := by
  induction cs with
  | nil => rfl
  | cons c cs' ih =>
    simp only [List.map_cons, List.filterMap_cons, leadsWith_self_append, if_true,
      drop10_self_append]
    rw [parseLits_interLits c (hne c (by simp)) (hlt c (by simp))]
    rw [ih (fun c2 h2 => hne c2 (List.mem_cons_of_mem c h2))
      (fun c2 h2 => hlt c2 (List.mem_cons_of_mem c h2))]

theorem bytesOf_asmText (bn : String) (data : List Nat)
    (hs : '\n' ∉ (safeName bn).data) (hd : ∀ b ∈ data, b < 256) :
    bytesOf (asmText bn data) = data ++ [0] := by
  have f_g1 : leadsWith byteDir (globLine1 (safeName bn).data) = false := by
    apply leadsWith_eq_false
    simp [globLine1, globDir, byteDir, List.take_append_eq_append_take]
  have f_g2 : leadsWith byteDir (globLine2 (safeName bn).data) = false := by
    apply leadsWith_eq_false
    simp [globLine2, globDir, byteDir, List.take_append_eq_append_take]
  have f_st : leadsWith byteDir (startLine (safeName bn).data) = false := by
    apply leadsWith_eq_false
    simp [startLine, byteDir, List.take_append_eq_append_take]
  have f_en : leadsWith byteDir (endLine (safeName bn).data) = false := by
    apply leadsWith_eq_false
    simp [endLine, byteDir, List.take_append_eq_append_take]
  unfold bytesOf
  rw [asm_lines bn data hs hd]
  simp only [List.filterMap_cons, List.filterMap_append,
    show leadsWith byteDir ([] : List Char) = false from by decide,
    show leadsWith byteDir sectLine = false from by decide,
    show leadsWith byteDir alignLine = false from by decide,
    show leadsWith byteDir sentLine = true from by decide,
    f_g1, f_g2, f_st, f_en, if_true, if_false, Bool.false_eq_true]
  rw [filterMap_chunkLines (chunk16 data)
    (fun c hc => (chunk16_sizes data c hc).1)
    (fun c hc b hb => hd b (chunk16_mem_mem data c hc b hb))]
  simp only [show parseLits (sentLine.drop 10) = some [0] from by decide]
  simp [chunk16_flatten]

theorem isLowHex_hexDigit : ∀ n < 16, isLowHex (hexDigit n) = true := by
  intro n h; interval_cases n <;> decide

theorem leadsWith_cons_same (c : Char) (p l : List Char) :
    leadsWith (c :: p) (c :: l) = leadsWith p l := by
  simp [leadsWith]

theorem leadsWith_false_head {p l : List Char} (a b : Char)
    (pa : p.head? = some a) (lb : l.head? = some b) (hab : a ≠ b) :
    leadsWith p l = false := by
  cases p with
  | nil => simp at pa
  | cons x xs =>
    cases l with
    | nil => simp [leadsWith]
    | cons y ys =>
      simp only [List.head?_cons, Option.some.injEq] at pa lb
      subst pa; subst lb
      exact leadsWith_head_ne _ _ hab xs ys

theorem globDir_not_chunkLine (x : List Char) :
    leadsWith globDir (byteDir ++ x) = false := by
  rw [show globDir = ' ' :: ' ' :: ' ' :: ' ' :: '.' :: 'g' :: "lobal ".data from rfl,
    show byteDir ++ x = ' ' :: ' ' :: ' ' :: ' ' :: '.' :: 'b' :: ("yte ".data ++ x) from rfl,
    leadsWith_cons_same, leadsWith_cons_same, leadsWith_cons_same, leadsWith_cons_same,
    leadsWith_cons_same]
  exact leadsWith_head_ne 'g' 'b' (by decide) _ _

theorem byteLines_asmText (bn : String) (data : List Nat)
    (hs : '\n' ∉ (safeName bn).data) (hd : ∀ b ∈ data, b < 256) :
    byteLines (asmText bn data) =
      ((chunk16 data).map fun c => byteDir ++ interLits c) ++ [sentLine] := by
  have f_g1 : leadsWith byteDir (globLine1 (safeName bn).data) = false := by
    apply leadsWith_eq_false
    simp [globLine1, globDir, byteDir, List.take_append_eq_append_take]
  have f_g2 : leadsWith byteDir (globLine2 (safeName bn).data) = false := by
    apply leadsWith_eq_false
    simp [globLine2, globDir, byteDir, List.take_append_eq_append_take]
  have f_st : leadsWith byteDir (startLine (safeName bn).data) = false := by
    apply leadsWith_eq_false
    simp [startLine, byteDir, List.take_append_eq_append_take]
  have f_en : leadsWith byteDir (endLine (safeName bn).data) = false := by
    apply leadsWith_eq_false
    simp [endLine, byteDir, List.take_append_eq_append_take]
  unfold byteLines
  rw [asm_lines bn data hs hd]
  simp only [List.filter_cons, List.filter_append,
    show leadsWith byteDir ([] : List Char) = false from by decide,
    show leadsWith byteDir sectLine = false from by decide,
    show leadsWith byteDir alignLine = false from by decide,
    show leadsWith byteDir sentLine = true from by decide,
    f_g1, f_g2, f_st, f_en, if_true, if_false, Bool.false_eq_true]
  rw [List.filter_eq_self.mpr fun l hl => by
    obtain ⟨c, _, rfl⟩ := List.mem_map.mp hl
    exact leadsWith_self_append byteDir (interLits c)]
  simp

theorem runPlan_units (fs : String → Option (List Nat)) (bdir : String) :
    ∀ plan : List String, (runPlan fs bdir plan).1 =
      (plan.filter fun f => (fs f).isSome).map fun f =>
        (asmPath bdir f, asmText (basename f) ((fs f).getD [])) := by
  intro plan
  induction plan with
  | nil => rfl
  | cons f rest ih =>
    cases hf : fs f with
    | some d => simp [runPlan, hf, ih, List.filter_cons]
    | none => simp [runPlan, hf, ih, List.filter_cons]

theorem runPlan_warns (fs : String → Option (List Nat)) (bdir : String) :
    ∀ plan : List String, (runPlan fs bdir plan).2 =
      (plan.filter fun f => (fs f).isNone).map
        fun f => "  WARNING: File not found: " ++ f := by
  intro plan
  induction plan with
  | nil => rfl
  | cons f rest ih =>
    cases hf : fs f with
    | some d => simp [runPlan, hf, ih, List.filter_cons]
    | none => simp [runPlan, hf, ih, List.filter_cons]

theorem runPlan_total_length (fs : String → Option (List Nat)) (bdir : String) :
    ∀ plan : List String,
      (runPlan fs bdir plan).1.length + (runPlan fs bdir plan).2.length = plan.length := by
  intro plan
  induction plan with
  | nil => rfl
  | cons f rest ih =>
    cases hf : fs f with
    | some d => simp [runPlan, hf]; omega
    | none => simp [runPlan, hf]; omega

theorem asmPath_inj (B a b : String) (h : asmPath B a = asmPath B b) :
    basename a = basename b := by
  unfold asmPath at h
  have hd := congrArg String.data h
  simp only [String.data_append] at hd
  have h1 := List.append_cancel_right hd
  have h2 := List.append_cancel_left h1
  exact String.ext h2

/-! ## Claim theorems -/

/-- C1: for every input file of length `L` bytes, the emitted unit's data
region (the byte values encoded by the byte-literal directive lines between
the labels) has length exactly `L + 1`, and its last byte is `0x00` —
appended unconditionally, also when the file's own last byte is `0x00`. -/
theorem embed_span_length (bn : String) (data : List Nat)
    (hs : '\n' ∉ (safeName bn).data) (hd : ∀ b ∈ data, b < 256) :
    (bytesOf (asmText bn data)).length = data.length + 1 ∧
    (bytesOf (asmText bn data)).getLast? = some 0 := by
  rw [bytesOf_asmText bn data hs hd]
  exact ⟨by simp, List.getLast?_concat data⟩

/-- Witness for C1 at the one-byte file `0x00` (so the sentinel is appended
even though the file's own last byte is already `0x00`). -/
theorem embed_span_length_witness :
    ('\n' ∉ (safeName "f.bin").data ∧ ∀ b ∈ [0], b < 256) ∧
    (bytesOf (asmText "f.bin" [0])).length = 2 ∧
    (bytesOf (asmText "f.bin" [0])).getLast? = some 0 :=
  ⟨⟨by decide, by decide⟩, embed_span_length "f.bin" [0] (by decide) (by decide)⟩

/-- C2: parsing the byte-literal directives of the emitted text back into
bytes reproduces the file contents followed by the sentinel, so stripping
the final sentinel byte reproduces the original contents exactly; every
byte-literal line holds at most sixteen literals, and each byte is rendered
as `0x` followed by two lowercase hex digits. -/
theorem embed_roundtrip (bn : String) (data : List Nat)
    (hs : '\n' ∉ (safeName bn).data) (hd : ∀ b ∈ data, b < 256) :
    (bytesOf (asmText bn data)).dropLast = data ∧
    bytesOf (asmText bn data) = data ++ [0] ∧
    (∀ l ∈ byteLines (asmText bn data),
      ∃ lits, parseLits (l.drop 10) = some lits ∧ lits.length ≤ 16) ∧
    (∀ b ∈ data, (byteLit b).data = ['0', 'x', hexDigit (b / 16), hexDigit (b % 16)] ∧
      isLowHex (hexDigit (b / 16)) = true ∧ isLowHex (hexDigit (b % 16)) = true) := by
  have hrt := bytesOf_asmText bn data hs hd
  refine ⟨?_, hrt, ?_, ?_⟩
  · rw [hrt, List.dropLast_concat]
  · intro l hl
    rw [byteLines_asmText bn data hs hd] at hl
    rcases List.mem_append.mp hl with h1 | h1
    · obtain ⟨c, hc, rfl⟩ := List.mem_map.mp h1
      refine ⟨c, ?_, (chunk16_sizes data c hc).2⟩
      rw [drop10_self_append]
      exact parseLits_interLits c (chunk16_sizes data c hc).1
        fun b hb => hd b (chunk16_mem_mem data c hc b hb)
    · rw [List.mem_singleton.mp h1]
      exact ⟨[0], by decide, by decide⟩
  · intro b hb
    exact ⟨byteLit_data b, isLowHex_hexDigit (b / 16) (by have := hd b hb; omega),
      isLowHex_hexDigit (b % 16) (by omega)⟩

/-- Witness for C2 at the three-byte text file `"ab\n"`. -/
theorem embed_roundtrip_witness :
    ('\n' ∉ (safeName "ab.txt").data ∧ ∀ b ∈ [97, 98, 10], b < 256) ∧
    (bytesOf (asmText "ab.txt" [97, 98, 10])).dropLast = [97, 98, 10] ∧
    bytesOf (asmText "ab.txt" [97, 98, 10]) = [97, 98, 10] ++ [0] :=
  ⟨⟨by decide, by decide⟩,
    (embed_roundtrip "ab.txt" [97, 98, 10] (by decide) (by decide)).1,
    (embed_roundtrip "ab.txt" [97, 98, 10] (by decide) (by decide)).2.1⟩

/-- C3: the derived symbol base is a pure function of the path's last
segment that replaces every `.` and every `-` by `_` and changes nothing
else (case preserved); in particular `style.css ↦ style_css` and
`app-config.js ↦ app_config_js`. -/
theorem symbol_base_spec :
    (∀ p : String, symbolBase p = specSymbolBase p) ∧
    symbolBase "style.css" = "style_css" ∧
    symbolBase "app-config.js" = "app_config_js" := by
  refine ⟨?_, by decide, by decide⟩
  intro p
  unfold symbolBase specSymbolBase safeName replaceChar
  show String.mk _ = String.mk _
  congr 1
  rw [show (⟨(basename p).data.map fun c => if c = '.' then '_' else c⟩ : String).data =
    (basename p).data.map (fun c => if c = '.' then '_' else c) from rfl, List.map_map]
  apply List.map_congr_left
  intro c _
  by_cases h1 : c = '.'
  · simp [Function.comp, h1]
  · by_cases h2 : c = '-'
    · simp [Function.comp, h1, h2]
    · simp [Function.comp, h1, h2]

/-- C4: the emitted text consists of exactly the section line, the two (and
only two) global-visibility declarations of the start and end symbols, the
alignment line, the start label, the byte-literal block, the unconditional
sentinel directive after the last data line, and the end label immediately
after the sentinel. -/
theorem embed_symbol_structure (bn : String) (data : List Nat)
    (hs : '\n' ∉ (safeName bn).data) (hd : ∀ b ∈ data, b < 256) :
    splitChar '\n' (asmText bn data).data =
      [] :: sectLine :: globLine1 (safeName bn).data :: globLine2 (safeName bn).data ::
        alignLine :: startLine (safeName bn).data :: [] ::
        (((chunk16 data).map fun c => byteDir ++ interLits c) ++
          [sentLine, endLine (safeName bn).data, []]) ∧
    (splitChar '\n' (asmText bn data).data).filter (fun l => leadsWith globDir l) =
      [globLine1 (safeName bn).data, globLine2 (safeName bn).data] := by
  refine ⟨asm_lines bn data hs hd, ?_⟩
  rw [asm_lines bn data hs hd]
  have t_g1 : leadsWith globDir (globLine1 (safeName bn).data) = true := by
    rw [globLine1]; exact leadsWith_self_append _ _
  have t_g2 : leadsWith globDir (globLine2 (safeName bn).data) = true := by
    rw [globLine2]; exact leadsWith_self_append _ _
  have f_st : leadsWith globDir (startLine (safeName bn).data) = false :=
    leadsWith_false_head ' ' '_' rfl rfl (by decide)
  have f_en : leadsWith globDir (endLine (safeName bn).data) = false :=
    leadsWith_false_head ' ' '_' rfl rfl (by decide)
  have f_chunks : (((chunk16 data).map fun c => byteDir ++ interLits c).filter
      fun l => leadsWith globDir l) = [] := by
    apply List.filter_eq_nil_iff.mpr
    intro l hl
    obtain ⟨c, _, rfl⟩ := List.mem_map.mp hl
    simp [globDir_not_chunkLine]
  simp only [List.filter_cons, List.filter_append,
    show leadsWith globDir ([] : List Char) = false from by decide,
    show leadsWith globDir sectLine = false from by decide,
    show leadsWith globDir alignLine = false from by decide,
    show leadsWith globDir sentLine = false from by decide,
    t_g1, t_g2, f_st, f_en, f_chunks, if_true, if_false, Bool.false_eq_true]
  simp

/-- Witness for C4 at the `style.css` example contents. -/
theorem embed_symbol_structure_witness :
    ('\n' ∉ (safeName "style.css").data ∧ ∀ b ∈ [0x2a, 0x7b, 0x7d], b < 256) ∧
    (splitChar '\n' (asmText "style.css" [0x2a, 0x7b, 0x7d]).data).filter
        (fun l => leadsWith globDir l) =
      [globLine1 (safeName "style.css").data, globLine2 (safeName "style.css").data] :=
  ⟨⟨by decide, by decide⟩,
    (embed_symbol_structure "style.css" [0x2a, 0x7b, 0x7d] (by decide) (by decide)).2⟩

/-- C5: a declared input missing from the filesystem is skipped with a
warning line and does not abort processing: the emitted units are exactly
those of the existing inputs in plan order, so a plan of `N` inputs with
exactly one missing yields exactly `N - 1` emitted units (and one warning). -/
theorem plan_missing_skip (fs : String → Option (List Nat)) (bdir : String)
    (plan : List String) (h : (plan.filter fun f => (fs f).isNone).length = 1) :
    (runPlan fs bdir plan).1.length = plan.length - 1 ∧
    (runPlan fs bdir plan).2.length = 1 ∧
    (runPlan fs bdir plan).1 = (plan.filter fun f => (fs f).isSome).map fun f =>
      (asmPath bdir f, asmText (basename f) ((fs f).getD [])) := by
  have hw : (runPlan fs bdir plan).2.length = 1 := by
    rw [runPlan_warns, List.length_map, h]
  have ht := runPlan_total_length fs bdir plan
  exact ⟨by omega, hw, runPlan_units fs bdir plan⟩

/-- Witness for C5: a two-input plan with exactly one missing input yields
exactly one emitted unit. -/
theorem plan_missing_skip_witness :
    ((["data/a.html", "data/b.html"].filter fun f =>
      ((fun f => if f = "data/a.html" then some [1] else none) f).isNone).length = 1) ∧
    (runPlan (fun f => if f = "data/a.html" then some [1] else none) "build"
      ["data/a.html", "data/b.html"]).1.length = ["data/a.html", "data/b.html"].length - 1 :=
  ⟨by decide,
    (plan_missing_skip (fun f => if f = "data/a.html" then some [1] else none) "build"
      ["data/a.html", "data/b.html"] (by decide)).1⟩

/-- C6: the code does not reject colliding symbol bases — on the plan
`["a.b", "a-b"]` with both files present it emits both units (writing two
output files) even though both derive the same symbol base `a_b`, instead
of rejecting the plan before any output is written. -/
theorem plan_collision_emitted :
    (runPlan (fun _ => some [0x41]) "build" ["a.b", "a-b"]).1.length = 2 ∧
    symbolBase "a.b" = symbolBase "a-b" ∧
    (runPlan (fun _ => some [0x41]) "build" ["a.b", "a-b"]).1.map Prod.fst =
      ["build/a.b.S", "build/a-b.S"] := by
  decide

/-- C7: emission is deterministic and idempotent — re-running the emitter on
the same input bytes writes the same text at the same derived output path
`build_dir/(base_name + ".S")`, the second write overwriting the first, so
the resulting file store is unchanged. -/
theorem emit_idempotent :
    ∀ (st : String → Option String) (bdir src : String) (data : List Nat),
      emitRun (emitRun st bdir src data) bdir src data = emitRun st bdir src data ∧
      emitRun st bdir src data (asmPath bdir src) = some (asmText (basename src) data) ∧
      asmPath bdir src = bdir ++ "/" ++ basename src ++ ".S" := by
  intro st bdir src data
  refine ⟨funext fun q => ?_, ?_, rfl⟩
  · unfold emitRun fsWrite
    by_cases h : q = asmPath bdir src <;> simp [h]
  · unfold emitRun fsWrite
    simp

/-- C8: the input file `style.css` with bytes `2a 7b 7d` yields a unit whose
text declares `_binary_style_css_start` / `_binary_style_css_end`, whose
data region is exactly the four bytes `2a 7b 7d 00`, and whose byte block
is a single data line with the three file literals followed by the
sentinel line. -/
theorem style_css_example :
    asmText "style.css" [0x2a, 0x7b, 0x7d] =
      "\n    .section .rodata.embedded\n    .global _binary_style_css_start\n    .global _binary_style_css_end\n    .align 4\n_binary_style_css_start:\n\n    .byte 0x2a, 0x7b, 0x7d\n    .byte 0x00\n_binary_style_css_end:\n" ∧
    bytesOf (asmText "style.css" [0x2a, 0x7b, 0x7d]) = [0x2a, 0x7b, 0x7d, 0x00] ∧
    safeName "style.css" = "style_css" ∧
    byteLines (asmText "style.css" [0x2a, 0x7b, 0x7d]) =
      ["    .byte 0x2a, 0x7b, 0x7d".data, "    .byte 0x00".data] := by
  decide

/-- C9: in the configured build plan, every pair of distinct resources
derives distinct output paths `build_dir/(base_name + ".S")`, for any build
directory — no two of the fifteen declared inputs write to the same file. -/
theorem asm_paths_distinct :
    ∀ B : String, data_files.Pairwise fun a b => asmPath B a ≠ asmPath B b := by
  intro B
  have hnames : data_files.Pairwise fun a b => basename a ≠ basename b := by
    have hnod : (data_files.map fun f => basename f).Nodup := by decide
    exact List.pairwise_map.mp hnod
  exact hnames.imp fun hne heq => hne (asmPath_inj B _ _ heq)

/-- C10: a zero-length input still produces a structurally complete unit:
no data byte-literal lines, a data region of exactly the single sentinel
byte `0x00` (span length 1), and both labels present. -/
theorem empty_file_unit (bn : String) (hs : '\n' ∉ (safeName bn).data) :
    splitChar '\n' (asmText bn []).data =
      [[], sectLine, globLine1 (safeName bn).data, globLine2 (safeName bn).data, alignLine,
        startLine (safeName bn).data, [], sentLine, endLine (safeName bn).data, []] ∧
    byteLines (asmText bn []) = [sentLine] ∧
    bytesOf (asmText bn []) = [0] := by
  refine ⟨?_, ?_, ?_⟩
  · simpa [chunk16_nil] using asm_lines bn [] hs (by simp)
  · simpa [chunk16_nil] using byteLines_asmText bn [] hs (by simp)
  · simpa using bytesOf_asmText bn [] hs (by simp)

/-- Witness for C10 at the base name `index.html`. -/
theorem empty_file_unit_witness :
    ('\n' ∉ (safeName "index.html").data) ∧
    byteLines (asmText "index.html" []) = [sentLine] ∧
    bytesOf (asmText "index.html" []) = [0] :=
  ⟨by decide, (empty_file_unit "index.html" (by decide)).2.1,
    (empty_file_unit "index.html" (by decide)).2.2⟩
